import Mathlib

/-!
Verification of the capsule-layer / dynamic-routing core of `capsLayer.py`
(CapsNet-Tensorflow).  Tensors are shallowly embedded as functions from
`Fin`-indexed coordinates to `ℝ`; the routing loop is embedded as an explicit
state machine iterated with `Function.iterate`.  All definitions are
transcribed from the source file; definitions whose names start with `spec`
transcribe the natural-language specification instead and are compared with
the code-side definitions by refinement theorems.
-/

open Filter Topology

namespace CapsNet

/-- Number of lower-level capsules, `6*6*32` in the source. -/
def nCapsIn : ℕ := 6 * 6 * 32

/-- Number of higher-level (digit) capsules, `10` in the source. -/
def nCapsOut : ℕ := 10

/-- Pose length of a lower capsule (`len_u_i = 8`). -/
def dimU : ℕ := 8

/-- Pose length of a higher capsule (`len_v_j = 16`). -/
def dimV : ℕ := 16

/-- The numeric-stability constant `1e-7` added under the square root in
`squash`. -/
noncomputable def eps : ℝ := 1 / 10 ^ 7

/-- Low-level capsule input tensor `[batch_size, 1152, 8]` (the source's
`[batch_size, 1152, 1, 8, 1]` with the singleton axes dropped). -/
abbrev InputU (B : ℕ) := Fin B → Fin nCapsIn → Fin dimU → ℝ

/-- Transform weight `W : [1152, 10, 8, 16]` (the source's
`(1, 6*6*32, 10, 8, 16)` variable with the broadcast batch axis dropped). -/
abbrev WeightW := Fin nCapsIn → Fin nCapsOut → Fin dimU → Fin dimV → ℝ

/-- Vote tensor `u_hat : [batch_size, 1152, 10, 16]`. -/
abbrev VotesU (B : ℕ) := Fin B → Fin nCapsIn → Fin nCapsOut → Fin dimV → ℝ

/-- Routing logits `b_IJ : [batch_size, 1152, 10]`. -/
abbrev LogitsB (B : ℕ) := Fin B → Fin nCapsIn → Fin nCapsOut → ℝ

/-- Higher-level capsule output `v_J : [batch_size, 10, 16]`. -/
abbrev CapsV (B : ℕ) := Fin B → Fin nCapsOut → Fin dimV → ℝ

/-- `vec_squared_norm = tf.reduce_sum(tf.square(vector), -1)`:
the squared Euclidean norm along the last axis. -/
noncomputable def norm2 {D : ℕ} (vector : Fin D → ℝ) : ℝ := ∑ d, (vector d) ^ 2

/-- `squash` from the source: `scalar_factor * vector` with
`scalar_factor = vec_squared_norm / (1 + vec_squared_norm)
               / tf.sqrt(vec_squared_norm + 1e-7)`,
applied along the last axis of the input tensor. -/
noncomputable def squash {D : ℕ} (vector : Fin D → ℝ) : Fin D → ℝ :=
  fun d => (norm2 vector / (1 + norm2 vector) / Real.sqrt (norm2 vector + eps)) * vector d

/-- `tf.nn.softmax` along one axis: `exp (b j) / Σ_k exp (b k)`. -/
noncomputable def softmax {n : ℕ} (b : Fin n → ℝ) : Fin n → ℝ :=
  fun j => Real.exp (b j) / ∑ k, Real.exp (b k)

/-- The vote computation
`u_hat = tf.matmul(W, input, transpose_a=True)` after the batch tiling:
`u_hat[b,i,j,d] = Σ_k W[i,j,k,d] * input[b,i,k]` (`Wᵀ` applied to `u_i`). -/
noncomputable def uHat {B : ℕ} (input : InputU B) (W : WeightW) : VotesU B :=
  fun bb i j d => ∑ k, W i j k d * input bb i k

/-- State of the routing loop: the vote tensor read by every iteration and
the two tensors the loop body assigns (`b_IJ` and `v_J`). -/
structure RState (B : ℕ) where
  uhat : VotesU B
  b_IJ : LogitsB B
  v_J : CapsV B

/-- One iteration of the routing loop body (source lines 95-126):
`c_IJ = softmax(b_IJ, dim=2)`;
`s_J = reduce_sum(c_IJ * u_hat, axis=1)`;
`v_J = squash(s_J)`;
`u_produce_v = reduce_sum(u_hat * v_J_tiled, axis=-1)`;
`b_IJ += u_produce_v`.  `u_hat` is read but never assigned. -/
noncomputable def iterBody {B : ℕ} (st : RState B) : RState B :=
  let c_IJ : LogitsB B := fun bb i j => softmax (st.b_IJ bb i) j
  let s_J : CapsV B := fun bb j d => ∑ i, c_IJ bb i j * st.uhat bb i j d
  let v_J : CapsV B := fun bb j => squash (s_J bb j)
  let u_produce_v : LogitsB B := fun bb i j => ∑ d, st.uhat bb i j d * v_J bb j d
  { uhat := st.uhat
    b_IJ := fun bb i j => st.b_IJ bb i j + u_produce_v bb i j
    v_J := v_J }

/-- Loop entry state: `u_hat` computed once before the loop,
`b_IJ = tf.constant(np.zeros(...))`, and `v_J` not yet assigned
(modelled as zero; every claim takes at least one iteration). -/
noncomputable def initState {B : ℕ} (input : InputU B) (W : WeightW) : RState B :=
  { uhat := uHat input W
    b_IJ := fun _ _ _ => 0
    v_J := fun _ _ _ => 0 }

/-- The routing algorithm (source lines 66-128): compute `u_hat` once, run the
loop body `R` times (`for r_iter in range(cfg.iter_routing)`), and
`return (v_J, b_IJ)`. -/
noncomputable def routing {B : ℕ} (input : InputU B) (W : WeightW) (R : ℕ) :
    CapsV B × LogitsB B :=
  let st := iterBody^[R] (initState input W)
  (st.v_J, st.b_IJ)

/-- The parameter list of the Python function `def routing(input):`. -/
def routingParams : List String := ["input"]

/-! ### Specification-side transcription of the routing iterator (§4.3)

The following `spec…` definitions transcribe the numbered algorithm of the
spec ("1. Initialize b ← zeros … 2. For iteration r = 1…R: a.–e. …
3. return (v, b)"), to be compared with `routing` by a refinement theorem. -/

/-- Spec step a: `c ← softmax(b, over N_out axis)`. -/
noncomputable def specCoupling {B : ℕ} (b : LogitsB B) : LogitsB B :=
  fun bb i j => softmax (b bb i) j

/-- Spec step b: `s[b,j,:] ← Σ_i c[b,i,j] · Û[b,i,j,:]`. -/
noncomputable def specWeightedSum {B : ℕ} (uh : VotesU B) (b : LogitsB B) : CapsV B :=
  fun bb j d => ∑ i, specCoupling b bb i j * uh bb i j d

/-- Spec step c: `v[b,j,:] ← Squash(s[b,j,:])`. -/
noncomputable def specVOut {B : ℕ} (uh : VotesU B) (b : LogitsB B) : CapsV B :=
  fun bb j => squash (fun d => specWeightedSum uh b bb j d)

/-- Spec step d: `agreement[b,i,j] ← Û[b,i,j,:] · v[b,j,:]`. -/
noncomputable def specAgreement {B : ℕ} (uh : VotesU B) (b : LogitsB B) : LogitsB B :=
  fun bb i j => ∑ d, uh bb i j d * specVOut uh b bb j d

/-- Spec steps 1 and e: logits start at zero and are updated additively,
`b ← b + agreement`, once per iteration. -/
noncomputable def specLogits {B : ℕ} (uh : VotesU B) : ℕ → LogitsB B
  | 0 => fun _ _ _ => 0
  | n + 1 => fun bb i j =>
      specLogits uh n bb i j + specAgreement uh (specLogits uh n) bb i j

/-- Spec step 3 for `R ≥ 1`: after the final iteration return `(v, b)`, where
`v` is computed in iteration `R` from the logits of iteration `R-1` and `b`
has received all `R` additive updates. -/
noncomputable def routingSpec {B : ℕ} (input : InputU B) (W : WeightW) (R : ℕ) :
    CapsV B × LogitsB B :=
  (specVOut (uHat input W) (specLogits (uHat input W) (R - 1)),
   specLogits (uHat input W) R)

/-! ### Helper lemmas: characterizing the iterated loop body -/

lemma iterate_uhat {B : ℕ} (input : InputU B) (W : WeightW) (n : ℕ) :
    (iterBody^[n] (initState input W)).uhat = uHat input W := by
  induction n with
  | zero => rfl
  | succ n ih => rw [Function.iterate_succ_apply']; exact ih

lemma iterate_b_IJ {B : ℕ} (input : InputU B) (W : WeightW) (n : ℕ) :
    (iterBody^[n] (initState input W)).b_IJ = specLogits (uHat input W) n := by
  induction n with
  | zero => rfl
  | succ n ih =>
    rw [Function.iterate_succ_apply']
    funext bb i j
    simp only [iterBody]
    rw [ih, iterate_uhat]
    simp only [specLogits, specAgreement, specVOut, specWeightedSum, specCoupling]

lemma iterate_v_J {B : ℕ} (input : InputU B) (W : WeightW) (n : ℕ) :
    (iterBody^[n + 1] (initState input W)).v_J =
      specVOut (uHat input W) (specLogits (uHat input W) n) := by
  rw [Function.iterate_succ_apply']
  funext bb j
  simp only [iterBody]
  rw [iterate_b_IJ, iterate_uhat]
  simp only [specVOut, specWeightedSum, specCoupling]

lemma uHat_zero_input {B : ℕ} (W : WeightW) :
    uHat (B := B) (fun _ _ _ => 0) W = fun _ _ _ _ => 0 := by
  funext bb i j d
  simp [uHat]

lemma iterBody_v_J_of_zero_uhat {B : ℕ} (st : RState B)
    (h : st.uhat = fun _ _ _ _ => 0) : (iterBody st).v_J = fun _ _ _ => 0 := by
  funext bb j d
  simp [iterBody, h, squash]

lemma softmax_sum_eq_one {n : ℕ} (hn : 0 < n) (b : Fin n → ℝ) :
    ∑ j, softmax b j = 1 := by
  have hpos : 0 < ∑ k, Real.exp (b k) :=
    Finset.sum_pos (fun k _ => Real.exp_pos _) ⟨⟨0, hn⟩, Finset.mem_univ _⟩
  simp only [softmax]
  rw [← Finset.sum_div, div_self hpos.ne']

/-- The coupling coefficients `c_IJ` computed by the softmax step of routing
iteration `r + 1`: the softmax of the logits left after `r` loop iterations. -/
noncomputable def couplingAt {B : ℕ} (input : InputU B) (W : WeightW) (r : ℕ) : LogitsB B :=
  fun bb i j => softmax ((iterBody^[r] (initState input W)).b_IJ bb i) j

/-! ### Claims -/

/-- C1: routing initializes the logits to zeros, runs exactly `R` sequential
iterations of softmax / weighted sum / squash / agreement / additive logit
update with no early exit, and returns the final pair `(v, b)` with `v` of
shape `[batch_size, 10, 16]` — i.e. the code refines the spec's numbered
algorithm. -/
theorem routing_follows_spec_algorithm {B : ℕ} (input : InputU B) (W : WeightW)
    (R : ℕ) (hR : 1 ≤ R) : routing input W R = routingSpec input W R := by
  obtain ⟨n, rfl⟩ : ∃ n, R = n + 1 := ⟨R - 1, (Nat.succ_pred_eq_of_pos hR).symm⟩
  simp only [routing, routingSpec, Nat.add_sub_cancel]
  rw [iterate_v_J, iterate_b_IJ]

/-- Witness for C1: the refinement theorem applied at a concrete input
(`B = 1`, zero input, zero weight, `R = 1`). -/
theorem routing_follows_spec_algorithm_witness :
    routing (B := 1) (fun _ _ _ => 0) (fun _ _ _ _ => 0) 1 =
      routingSpec (fun _ _ _ => 0) (fun _ _ _ _ => 0) 1 :=
  routing_follows_spec_algorithm _ _ 1 (by norm_num)

/-- C3: after every softmax step the coupling coefficients of each
`(batch, lower capsule)` row sum to `1`, and on the first iteration (zero
logits) every coefficient is exactly `1/10`. -/
theorem coupling_sums_to_one_and_first_uniform :
    (∀ (B : ℕ) (input : InputU B) (W : WeightW) (r : ℕ) (bb : Fin B) (i : Fin nCapsIn),
      ∑ j, couplingAt input W r bb i j = 1) ∧
    (∀ (B : ℕ) (input : InputU B) (W : WeightW) (bb : Fin B) (i : Fin nCapsIn)
      (j : Fin nCapsOut), couplingAt input W 0 bb i j = 1 / 10) := by
  constructor
  · intro B input W r bb i
    exact softmax_sum_eq_one (by norm_num [nCapsOut]) _
  · intro B input W bb i j
    simp [couplingAt, initState, softmax, Real.exp_zero, Finset.card_univ, nCapsOut]

/-- C4: `squash` maps each vector `v` along the last axis to
`(s / (1+s)) * (v / sqrt (s + ε))` with `s = ‖v‖²` and `ε = 1e-7`, the
output having the same shape; the `ε` term keeps the denominator strictly
positive even at `v = 0`. -/
theorem squash_formula_matches_spec :
    (∀ (D : ℕ) (v : Fin D → ℝ) (d : Fin D),
      squash v d = (norm2 v / (1 + norm2 v)) * (v d / Real.sqrt (norm2 v + eps))) ∧
    (∀ (D : ℕ) (v : Fin D → ℝ), 0 < Real.sqrt (norm2 v + eps)) := by
  constructor
  · intro D v d
    simp only [squash]
    ring
  · intro D v
    have h0 : 0 ≤ norm2 v := Finset.sum_nonneg fun d _ => sq_nonneg _
    have heps : (0 : ℝ) < eps := by norm_num [eps]
    exact Real.sqrt_pos.mpr (by linarith)

/-- C5: the vote tensor `u_hat` is computed exactly once before the loop as
`u_hat[b,i,j] = W[i,j]ᵀ · U[b,i]` (with `W` shared across the batch), the
loop body never modifies it, and after any number of iterations the state
still carries the `u_hat` computed up front. -/
theorem uhat_computed_once_and_invariant :
    (∀ (B : ℕ) (st : RState B), (iterBody st).uhat = st.uhat) ∧
    (∀ (B : ℕ) (input : InputU B) (W : WeightW) (bb : Fin B) (i : Fin nCapsIn)
      (j : Fin nCapsOut) (d : Fin dimV),
      uHat input W bb i j d = ∑ k, W i j k d * input bb i k) ∧
    (∀ (B : ℕ) (input : InputU B) (W : WeightW) (R : ℕ),
      (iterBody^[R] (initState input W)).uhat = uHat input W) :=
  ⟨fun _ _ => rfl, fun _ _ _ _ _ _ _ => rfl, fun _ input W R => iterate_uhat input W R⟩

/-- C7: with an all-zero input capsule tensor the votes are zero, `squash`
maps the zero vector to exactly zero, and for every weight tensor and every
iteration count `R ≥ 1` the routing output `v` is exactly zero. -/
theorem zero_input_gives_zero_output :
    (∀ (D : ℕ), squash (fun _ : Fin D => (0 : ℝ)) = fun _ => 0) ∧
    (∀ (B : ℕ) (W : WeightW), uHat (B := B) (fun _ _ _ => 0) W = fun _ _ _ _ => 0) ∧
    (∀ (B : ℕ) (W : WeightW) (R : ℕ), 1 ≤ R →
      (routing (B := B) (fun _ _ _ => 0) W R).1 = fun _ _ _ => 0) := by
  refine ⟨fun D => ?_, fun B W => uHat_zero_input W, fun B W R hR => ?_⟩
  · funext d
    simp [squash]
  · obtain ⟨n, rfl⟩ : ∃ n, R = n + 1 := ⟨R - 1, (Nat.succ_pred_eq_of_pos hR).symm⟩
    simp only [routing]
    rw [Function.iterate_succ_apply']
    exact iterBody_v_J_of_zero_uhat _ (by rw [iterate_uhat]; exact uHat_zero_input W)

/-- Witness for C7: a concrete zero input with `B = 1`, zero weight, `R = 1`
routes to the zero capsule tensor. -/
theorem zero_input_gives_zero_output_witness :
    (routing (B := 1) (fun _ _ _ => 0) (fun _ _ _ _ => 0) 1).1 = fun _ _ _ => 0 :=
  zero_input_gives_zero_output.2.2 1 (fun _ _ _ _ => 0) 1 (by norm_num)

/-- C9: routing is deterministic — two invocations on equal input tensors,
equal weight tensors and equal iteration counts return equal outputs `(v, b)`
(the embedding of the routing computation is a pure function with no source
of nondeterminism once `U`, `W`, `R` are fixed). -/
theorem routing_deterministic {B : ℕ} (U U' : InputU B) (W W' : WeightW)
    (R R' : ℕ) (hU : U = U') (hW : W = W') (hR : R = R') :
    routing U W R = routing U' W' R' := by
  rw [hU, hW, hR]

/-- Witness for C9: determinism applied at a concrete invocation pair. -/
theorem routing_deterministic_witness :
    routing (B := 1) (fun _ _ _ => 0) (fun _ _ _ _ => 0) 1 =
      routing (fun _ _ _ => 0) (fun _ _ _ _ => 0) 1 :=
  routing_deterministic _ _ _ _ _ _ rfl rfl rfl

/-! ### Length analysis of `squash` -/

/-- Euclidean length along the last axis, `sqrt` of `norm2`. -/
noncomputable def vecNorm {D : ℕ} (v : Fin D → ℝ) : ℝ := Real.sqrt (norm2 v)

/-- The length of `squash v` as a function of `x = ‖v‖`:
`(x² / (1 + x²)) · (x / sqrt (x² + ε))`. -/
noncomputable def squashLen (x : ℝ) : ℝ :=
  (x ^ 2 / (1 + x ^ 2)) * (x / Real.sqrt (x ^ 2 + eps))

lemma eps_pos : (0 : ℝ) < eps := by norm_num [eps]

lemma norm2_nonneg {D : ℕ} (v : Fin D → ℝ) : 0 ≤ norm2 v :=
  Finset.sum_nonneg fun _ _ => sq_nonneg _

lemma norm2_smul {D : ℕ} (c : ℝ) (v : Fin D → ℝ) :
    norm2 (fun d => c * v d) = c ^ 2 * norm2 v := by
  simp [norm2, Finset.mul_sum, mul_pow]

lemma vecNorm_pos_of_ne_zero {D : ℕ} (v : Fin D → ℝ) (hv : v ≠ 0) : 0 < vecNorm v := by
  have h0 : 0 ≤ norm2 v := norm2_nonneg v
  have hne : norm2 v ≠ 0 := by
    intro h
    apply hv
    funext d
    have hd := (Finset.sum_eq_zero_iff_of_nonneg
      (fun d _ => sq_nonneg (v d))).mp h d (Finset.mem_univ d)
    exact (pow_eq_zero_iff two_ne_zero).mp hd
  exact Real.sqrt_pos.mpr (lt_of_le_of_ne h0 (Ne.symm hne))

lemma vecNorm_squash {D : ℕ} (v : Fin D → ℝ) :
    vecNorm (squash v) = squashLen (vecNorm v) := by
  have h0 : 0 ≤ norm2 v := norm2_nonneg v
  have hfac : 0 ≤ norm2 v / (1 + norm2 v) / Real.sqrt (norm2 v + eps) :=
    div_nonneg (div_nonneg h0 (by linarith)) (Real.sqrt_nonneg _)
  rw [vecNorm, show norm2 (squash v) =
      (norm2 v / (1 + norm2 v) / Real.sqrt (norm2 v + eps)) ^ 2 * norm2 v from
    norm2_smul _ v]
  rw [Real.sqrt_mul (sq_nonneg _), Real.sqrt_sq_eq_abs, abs_of_nonneg hfac,
    squashLen, vecNorm, Real.sq_sqrt h0]
  ring

lemma squashLen_pos_lt_one (x : ℝ) (hx : 0 < x) : 0 < squashLen x ∧ squashLen x < 1 := by
  have hx2 : 0 < x ^ 2 := by positivity
  have hse : 0 < Real.sqrt (x ^ 2 + eps) :=
    Real.sqrt_pos.mpr (by nlinarith [eps_pos])
  constructor
  · exact mul_pos (div_pos hx2 (by positivity)) (div_pos hx hse)
  · have h1 : x ^ 2 / (1 + x ^ 2) < 1 := by
      rw [div_lt_one (by positivity)]
      linarith
    have h2 : x / Real.sqrt (x ^ 2 + eps) < 1 := by
      rw [div_lt_one hse]
      calc x = Real.sqrt (x ^ 2) := (Real.sqrt_sq hx.le).symm
      _ < Real.sqrt (x ^ 2 + eps) := Real.sqrt_lt_sqrt (sq_nonneg x) (by linarith [eps_pos])
    have ha : 0 ≤ x ^ 2 / (1 + x ^ 2) := by positivity
    calc squashLen x ≤ x ^ 2 / (1 + x ^ 2) * 1 := by
          rw [squashLen]
          exact mul_le_mul_of_nonneg_left h2.le ha
    _ = x ^ 2 / (1 + x ^ 2) := mul_one _
    _ < 1 := h1

lemma continuous_squashLen : Continuous squashLen := by
  unfold squashLen
  apply Continuous.mul
  · exact Continuous.div (by continuity) (by continuity) fun x => by positivity
  · refine Continuous.div continuous_id (Real.continuous_sqrt.comp (by continuity)) fun x => ?_
    exact (Real.sqrt_pos.mpr (by nlinarith [eps_pos, sq_nonneg x])).ne'

lemma tendsto_squashLen_zero : Tendsto squashLen (nhds 0) (nhds 0) := by
  have h0 : squashLen 0 = 0 := by simp [squashLen]
  simpa [h0] using continuous_squashLen.tendsto 0

lemma tendsto_squashLen_atTop : Tendsto squashLen atTop (nhds 1) := by
  have h1 : Tendsto (fun x : ℝ => x ^ 2 / (1 + x ^ 2)) atTop (nhds 1) := by
    have hbase1 : Tendsto (fun x : ℝ => 1 + x ^ 2) atTop atTop :=
      tendsto_atTop_add_const_left atTop 1
        (tendsto_pow_atTop (by norm_num : (2 : ℕ) ≠ 0))
    have hinv : Tendsto (fun x : ℝ => (1 + x ^ 2)⁻¹) atTop (nhds 0) :=
      tendsto_inv_atTop_zero.comp hbase1
    have heq : ∀ x : ℝ, 1 - (1 + x ^ 2)⁻¹ = x ^ 2 / (1 + x ^ 2) := by
      intro x
      have hne : (1 : ℝ) + x ^ 2 ≠ 0 := by positivity
      field_simp
    have := (tendsto_const_nhds (x := (1 : ℝ)) (f := atTop)).sub hinv
    simpa using this.congr heq
  have h2 : Tendsto (fun x : ℝ => x / Real.sqrt (x ^ 2 + eps)) atTop (nhds 1) := by
    have hq : Tendsto (fun x : ℝ => x ^ 2 / (x ^ 2 + eps)) atTop (nhds 1) := by
      have hbase2 : Tendsto (fun x : ℝ => x ^ 2 + eps) atTop atTop :=
        tendsto_atTop_add_const_right atTop eps
          (tendsto_pow_atTop (by norm_num : (2 : ℕ) ≠ 0))
      have hinv : Tendsto (fun x : ℝ => (x ^ 2 + eps)⁻¹) atTop (nhds 0) :=
        tendsto_inv_atTop_zero.comp hbase2
      have heq : ∀ x : ℝ, 1 - eps * (x ^ 2 + eps)⁻¹ = x ^ 2 / (x ^ 2 + eps) := by
        intro x
        have hne : x ^ 2 + eps ≠ 0 := by nlinarith [eps_pos, sq_nonneg x]
        field_simp
      have := (tendsto_const_nhds (x := (1 : ℝ)) (f := atTop)).sub (hinv.const_mul eps)
      simpa using this.congr heq
    have hsq : Tendsto (fun x : ℝ => Real.sqrt (x ^ 2 / (x ^ 2 + eps))) atTop (nhds 1) := by
      have := (Real.continuous_sqrt.tendsto 1).comp hq
      simpa using this
    have hev : (fun x : ℝ => Real.sqrt (x ^ 2 / (x ^ 2 + eps))) =ᶠ[atTop]
        fun x => x / Real.sqrt (x ^ 2 + eps) := by
      filter_upwards [eventually_ge_atTop (0 : ℝ)] with x hx
      rw [Real.sqrt_div (sq_nonneg x), Real.sqrt_sq hx]
    exact hsq.congr' hev
  have := h1.mul h2
  simpa [squashLen] using this

/-- C6: for nonzero `v` the length of `squash v` lies strictly in `(0, 1)`;
the length function `squashLen` (to which `‖squash v‖` always evaluates at
`x = ‖v‖`) tends to `0` as `‖v‖ → 0` and to `1` as `‖v‖ → ∞`; and `squash v`
is a nonnegative scalar multiple of `v`, preserving its direction. -/
theorem squash_length_in_unit_interval :
    (∀ (D : ℕ) (v : Fin D → ℝ), v ≠ 0 →
      0 < vecNorm (squash v) ∧ vecNorm (squash v) < 1) ∧
    (∀ (D : ℕ) (v : Fin D → ℝ), vecNorm (squash v) = squashLen (vecNorm v)) ∧
    Tendsto squashLen (nhds 0) (nhds 0) ∧
    Tendsto squashLen atTop (nhds 1) ∧
    (∀ (D : ℕ) (v : Fin D → ℝ), ∃ c : ℝ, 0 ≤ c ∧ squash v = fun d => c * v d) := by
  refine ⟨fun D v hv => ?_, fun D v => vecNorm_squash v,
    tendsto_squashLen_zero, tendsto_squashLen_atTop, fun D v => ?_⟩
  · rw [vecNorm_squash]
    exact squashLen_pos_lt_one _ (vecNorm_pos_of_ne_zero v hv)
  · refine ⟨norm2 v / (1 + norm2 v) / Real.sqrt (norm2 v + eps), ?_, rfl⟩
    exact div_nonneg (div_nonneg (norm2_nonneg v)
      (by linarith [norm2_nonneg v])) (Real.sqrt_nonneg _)

/-- Witness for C6: the one-dimensional all-ones vector is nonzero and its
squashed length lies strictly between `0` and `1`. -/
theorem squash_length_in_unit_interval_witness :
    0 < vecNorm (squash (fun _ : Fin 1 => 1)) ∧
      vecNorm (squash (fun _ : Fin 1 => 1)) < 1 :=
  squash_length_in_unit_interval.1 1 (fun _ => 1)
    (fun h => one_ne_zero (congrFun h 0))

/-! ### The unrouted convolutional (PrimaryCaps) path -/

/-- Convolution output of the PrimaryCaps layer, asserted in the source to
have shape `[batch_size, 6, 6, 8*32]`. -/
abbrev ConvOut (B : ℕ) := Fin B → Fin 6 → Fin 6 → Fin 256 → ℝ

/-- The CONV / no-routing path after the convolution (source lines 40-49):
`capsules = squash(capsules)` applied directly to the `[batch, 6, 6, 256]`
tensor, so the normalization runs over the whole 256-channel axis. -/
noncomputable def primaryCaps {B : ℕ} (conv : ConvOut B) : ConvOut B :=
  fun bb r c => squash (conv bb r c)

/-- Modelled from the spec: the computation §4.4 describes for the unrouted
variant — and the source's stale comment `# [batch_size, 1152, 8, 1]`
documents — but which the code does not perform: reshape the `[B, 6, 6, 256]`
convolution output into capsule groups of pose length `vec_len = 8`
(row-major, so channel `ch` lands in group `ch / 8` at position `ch % 8`) and
apply `squash` to each 8-dimensional pose vector independently. -/
noncomputable def primaryCapsPerCapsule {B : ℕ} (conv : ConvOut B) : ConvOut B :=
  fun bb r c ch =>
    squash (fun k : Fin 8 => conv bb r c
        ⟨ch.val / 8 * 8 + k.val, by have h1 := ch.isLt; have h2 := k.isLt; omega⟩)
      ⟨ch.val % 8, by have h1 := ch.isLt; omega⟩

/-- Concrete convolution output: channels `0` and `8` (which lie in different
8-channel capsule groups) are `1` at every location, all other channels `0`. -/
noncomputable def convProbe : ConvOut 1 :=
  fun _ _ _ ch => if ch.val = 0 ∨ ch.val = 8 then 1 else 0

lemma convProbe_norm2 : norm2 (convProbe 0 0 0) = 2 := by
  show norm2 (fun ch : Fin 256 => if ch.val = 0 ∨ ch.val = 8 then (1 : ℝ) else 0) = 2
  have h : ∀ ch : Fin 256,
      (if ch.val = 0 ∨ ch.val = 8 then (1 : ℝ) else 0) ^ 2
        = if ch.val = 0 ∨ ch.val = 8 then (1 : ℝ) else 0 := by
    intro ch
    split <;> norm_num
  rw [norm2, Finset.sum_congr rfl fun ch _ => h ch, Finset.sum_boole]
  have hcard :
      (Finset.filter (fun ch : Fin 256 => ch.val = 0 ∨ ch.val = 8) Finset.univ).card = 2 := by
    set_option maxRecDepth 8000 in decide
  rw [hcard]
  norm_num

lemma squash_big_axis_lt_squash_group :
    2 / 3 / Real.sqrt (2 + eps) < 1 / 2 / Real.sqrt (1 + eps) := by
  have h2pos : (0 : ℝ) < 2 + eps := by norm_num [eps]
  have h1pos : (0 : ℝ) < 1 + eps := by norm_num [eps]
  have hs2 : (1.39 : ℝ) < Real.sqrt (2 + eps) := by
    rw [show (1.39 : ℝ) = Real.sqrt (1.39 ^ 2) from (Real.sqrt_sq (by norm_num)).symm]
    exact Real.sqrt_lt_sqrt (by norm_num) (by norm_num [eps])
  have hs1 : Real.sqrt (1 + eps) < 1.01 := by
    rw [show (1.01 : ℝ) = Real.sqrt (1.01 ^ 2) from (Real.sqrt_sq (by norm_num)).symm]
    exact Real.sqrt_lt_sqrt h1pos.le (by norm_num [eps])
  have hs1pos : 0 < Real.sqrt (1 + eps) := Real.sqrt_pos.mpr h1pos
  have hs2pos : 0 < Real.sqrt (2 + eps) := Real.sqrt_pos.mpr h2pos
  rw [div_lt_div_iff₀ hs2pos hs1pos]
  nlinarith

lemma primaryCaps_probe_value :
    primaryCaps convProbe 0 0 0 ⟨0, by norm_num⟩ = 2 / 3 / Real.sqrt (2 + eps) := by
  simp only [primaryCaps, squash]
  rw [convProbe_norm2]
  norm_num [convProbe]

lemma primaryCapsPerCapsule_probe_value :
    primaryCapsPerCapsule convProbe 0 0 0 ⟨0, by norm_num⟩
      = 1 / 2 / Real.sqrt (1 + eps) := by
  show squash (fun k : Fin 8 =>
      if (0 : ℕ) / 8 * 8 + k.val = 0 ∨ (0 : ℕ) / 8 * 8 + k.val = 8
        then (1 : ℝ) else 0) ⟨0, by norm_num⟩ = 1 / 2 / Real.sqrt (1 + eps)
  have hvec : (fun k : Fin 8 =>
      if (0 : ℕ) / 8 * 8 + k.val = 0 ∨ (0 : ℕ) / 8 * 8 + k.val = 8
        then (1 : ℝ) else 0)
      = fun k : Fin 8 => if k.val = 0 then 1 else 0 := by
    funext k
    have h2 := k.isLt
    have hiff : ((0 : ℕ) / 8 * 8 + k.val = 0 ∨ (0 : ℕ) / 8 * 8 + k.val = 8)
        ↔ k.val = 0 := by omega
    simp only [hiff]
  rw [hvec]
  have hnorm : norm2 (fun k : Fin 8 => if k.val = 0 then (1 : ℝ) else 0) = 1 := by
    have h : ∀ k : Fin 8,
        (if k.val = 0 then (1 : ℝ) else 0) ^ 2 = if k = (0 : Fin 8) then (1 : ℝ) else 0 := by
      intro k
      by_cases hk : k.val = 0 <;> simp [hk, Fin.ext_iff]
    rw [norm2, Finset.sum_congr rfl fun k _ => h k,
      Finset.sum_ite_eq' Finset.univ (0 : Fin 8) fun _ => (1 : ℝ)]
    simp
  simp only [squash, hnorm]
  norm_num

/-- C2 evidence: at a convolution output whose channels `0` and `8` are `1`
and all others `0`, the code's squash-over-256-channels produces
`(2/3)/sqrt(2+ε)` at channel `0`, while the spec's per-8-channel-capsule
squash produces `(1/2)/sqrt(1+ε)` there — the code does not squash each
8-dimensional pose vector independently. -/
theorem primaryCaps_squash_not_per_capsule :
    primaryCaps convProbe 0 0 0 ⟨0, by norm_num⟩ ≠
      primaryCapsPerCapsule convProbe 0 0 0 ⟨0, by norm_num⟩ := by
  rw [primaryCaps_probe_value, primaryCapsPerCapsule_probe_value]
  exact ne_of_lt squash_big_axis_lt_squash_group

/-! ### Routing interface and `CapsLayer.__call__` control flow -/

/-- C8 counterexample: the exposed routing function does not take
`(input, weight, iterations)` — its Python parameter list is `["input"]`
only (the weight is created internally by `tf.get_variable` and the
iteration count is read from `cfg.iter_routing`). -/
theorem routingParams_not_input_weight_iterations :
    routingParams ≠ ["input", "weight", "iterations"] := by
  decide

/-- C8 (amended): `routing` is exposed as a function of the input tensor
alone, and it returns the pair `(output_capsules, final_logits)`: for
`R ≥ 1` the first component is the squashed weighted vote sum computed from
the logits after `R - 1` updates and the second is the logits after all `R`
additive updates. -/
theorem routing_interface_returns_pair :
    routingParams = ["input"] ∧
    (∀ (B : ℕ) (input : InputU B) (W : WeightW) (R : ℕ), 1 ≤ R →
      (routing input W R).1 =
          specVOut (uHat input W) (specLogits (uHat input W) (R - 1)) ∧
        (routing input W R).2 = specLogits (uHat input W) R) := by
  refine ⟨rfl, fun B input W R hR => ?_⟩
  obtain ⟨n, rfl⟩ : ∃ n, R = n + 1 := ⟨R - 1, (Nat.succ_pred_eq_of_pos hR).symm⟩
  simp only [routing, Nat.add_sub_cancel]
  exact ⟨iterate_v_J input W n, iterate_b_IJ input W (n + 1)⟩

/-- Witness for C8: the interface theorem applied at a concrete invocation
(`B = 1`, zero input, zero weight, `R = 1`). -/
theorem routing_interface_returns_pair_witness :
    routingParams = ["input"] ∧
      (routing (B := 1) (fun _ _ _ => 0) (fun _ _ _ _ => 0) 1).2 =
        specLogits (uHat (fun _ _ _ => 0) (fun _ _ _ _ => 0)) 1 :=
  ⟨routing_interface_returns_pair.1,
   (routing_interface_returns_pair.2 1 _ _ 1 (by norm_num)).2⟩

/-- Possible outcomes of a Python call: a returned value, the implicit
`None` returned when control falls off the end of the function body, or an
`UnboundLocalError` raised by reading a never-assigned local variable. -/
inductive PyResult (α : Type) where
  | value : α → PyResult α
  | pyNone : PyResult α
  | unboundLocalError : PyResult α

/-- Control flow of `CapsLayer.__call__` (source lines 27-63), transcribed
branch by branch.  `if layer_type == 'CONV'` and, inside it,
`if not with_routing: … return capsules` (the `convCapsules` payload);
otherwise control reaches `if layer_type == 'FC'`, whose body computes and
returns `fcCapsules` only when `with_routing` is true — with
`with_routing = False` the `return capsules` statement reads the
never-assigned local `capsules`.  If neither suite returns, the call
returns `None`. -/
def capsLayerCall {α : Type} (layer_type : String) (with_routing : Bool)
    (convCapsules fcCapsules : α) : PyResult α :=
  if layer_type = "CONV" ∧ with_routing = false then PyResult.value convCapsules
  else if layer_type = "FC" then
    if with_routing then PyResult.value fcCapsules else PyResult.unboundLocalError
  else PyResult.pyNone

/-- C10: a `CONV` layer with routing falls through every branch and the call
returns `None`, and an `FC` layer without routing reaches its return
statement with `capsules` unbound, raising an unbound-local error — neither
misconfiguration ever produces a capsule tensor. -/
theorem misconfigured_capsLayer_returns_no_tensor :
    ∀ (α : Type) (convCapsules fcCapsules : α),
      capsLayerCall "CONV" true convCapsules fcCapsules = PyResult.pyNone ∧
      capsLayerCall "FC" false convCapsules fcCapsules = PyResult.unboundLocalError := by
  intro α convCapsules fcCapsules
  constructor <;> simp [capsLayerCall]

end CapsNet
